import Mathlib

/-!
Shallow embedding of the `filewatch` Go package (file `filewatch.go`,
function `Watch`) together with proofs about the claims of its
specification.

Modelling conventions:
* A filesystem path is a list of name segments (`Path`): the absolute
  root path followed by one segment per directory level.  `filepath.Join`
  of a parent path with a child name is `p ++ [n]`.
* `os.FileInfo` becomes `FileInfo` (directory flag, modification time in
  nanoseconds, size in bytes); `time.Time.Before` is `<` on `Int`.
* A Go `error` becomes `GoErr`; `os.IsNotExist` is `GoErr.isNotExist`.
* The filesystem as observed at one instant is a flat association list
  `FS` from paths to stat outcomes; an entry carrying `.error e` models a
  path whose `lstat`/`os.Stat` fails with error `e`, an absent path stats
  as a not-exist error.
* `filepath.Walk` is modelled by `goWalk`: the root is visited first and
  the proper descendants of the root present in the filesystem are then
  visited in depth-first (lexicographic) order; the callback may continue,
  skip a subtree (`filepath.SkipDir`) or abort the walk with an error,
  exactly as in `path/filepath.walk`.
* The `map[string]os.FileInfo` named `infos` becomes the association list
  `Infos` with `lookupKey` / `setKey` / `eraseKey`.
* One timer tick of the watch goroutine is `scanTick`; the goroutine's
  `select` loop is `runLoop`, driven by a list of `SelectStep`s, each
  recording whether the `done` channel was ready at that iteration and
  which branch the `select` chose (Go's `select` picks pseudo-randomly
  among ready branches, so a step choosing the ticker branch while `done`
  is ready is a valid behaviour).  The filesystem state a tick observes is
  attached to the chosen ticker branch.
-/

namespace Filewatch

/-- A filesystem path, as a list of name segments. -/
abbrev Path : Type := List String

/-- The part of `os.FileInfo` the program consults: `IsDir`, `ModTime`
(nanoseconds) and `Size` (bytes). -/
structure FileInfo where
  isDir : Bool
  modTime : Int
  size : Int
deriving DecidableEq, Repr

/-- A Go `error` value: either a not-exist stat failure (the case
`os.IsNotExist` recognises) or any other error with a message. -/
inductive GoErr where
  | notExist (p : Path)
  | other (msg : String)
deriving DecidableEq, Repr

/-- `os.IsNotExist` on the errors of this model. -/
def GoErr.isNotExist : GoErr → Bool
  | .notExist _ => true
  | .other _ => false

/-- The `Update` struct of the package.  `Prev`/`Next` are `os.FileInfo`
interface values, hence `Option` (Go `nil` is `none`); likewise `Error`. -/
structure Update where
  absPath : Path
  prev : Option FileInfo
  next : Option FileInfo
  error : Option GoErr
  wasRemoved : Bool
  wasAdded : Bool
deriving DecidableEq, Repr

/-- The filesystem at one observation instant: each present path with the
outcome of stat-ing it. -/
abbrev FS : Type := List (Path × Except GoErr FileInfo)

/-- The tracked set `infos : map[string]os.FileInfo`, as an association
list in insertion order. -/
abbrev Infos : Type := List (Path × FileInfo)

/-- Go map read `m[k]` (missing key gives the `nil` interface, `none`). -/
def lookupKey (m : Infos) (k : Path) : Option FileInfo :=
  match m with
  | [] => none
  | (k', v) :: rest => if k' = k then some v else lookupKey rest k

/-- Go map write `m[k] = v`. -/
def setKey (m : Infos) (k : Path) (v : FileInfo) : Infos :=
  match m with
  | [] => [(k, v)]
  | (k', v') :: rest => if k' = k then (k, v) :: rest else (k', v') :: setKey rest k v

/-- Go map `delete(m, k)`. -/
def eraseKey (m : Infos) (k : Path) : Infos :=
  m.filter (fun e => decide (e.1 ≠ k))

/-- `os.Stat` against a filesystem snapshot: the recorded outcome, or a
not-exist error for an absent path. -/
def statFS (fs : FS) (p : Path) : Except GoErr FileInfo :=
  match fs with
  | [] => .error (.notExist p)
  | (q, st) :: rest => if q = p then st else statFS rest p

/-- `pathUnder r p` holds when `r` is a (not necessarily proper) prefix of
`p`, i.e. `p` lies in the subtree rooted at `r`. -/
def pathUnder : List String → List String → Bool
  | [], _ => true
  | _ :: _, [] => false
  | a :: as, b :: bs => a = b && pathUnder as bs

/-- Lexicographic order on paths; prefix-first, so it enumerates a
depth-first pre-order traversal, matching `filepath.Walk`'s visit order. -/
def lexLe : List String → List String → Bool
  | [], _ => true
  | _ :: _, [] => false
  | a :: as, b :: bs => if a = b then lexLe as bs else decide (a < b)

/-- Insert into a `le`-sorted list. -/
def insSorted (le : α → α → Bool) (x : α) : List α → List α
  | [] => [x]
  | y :: ys => if le x y then x :: y :: ys else y :: insSorted le x ys

/-- Insertion sort (the model's stand-in for the OS's sorted directory
enumeration feeding `filepath.Walk`). -/
def insSort (le : α → α → Bool) : List α → List α
  | [] => []
  | x :: xs => insSorted le x (insSort le xs)

/-- What the walk callback (`filepath.WalkFunc`) may answer: continue,
`filepath.SkipDir`, or a genuine error that aborts the walk. -/
inductive FnRes where
  | cont
  | skipDir
  | fail (e : GoErr)

/-- The visit sequence of `filepath.Walk(root, ...)` over filesystem `fs`:
the root itself (stat-ed first), then every proper descendant of `root`
present in `fs`, in depth-first lexicographic order. -/
def walkVisits (fs : FS) (root : Path) : List (Path × Except GoErr FileInfo) :=
  (root, statFS fs root) ::
    insSort (fun a b => lexLe a.1 b.1)
      (fs.filter (fun e => pathUnder root e.1 && decide (e.1 ≠ root)))

/-- The engine of `path/filepath.walk`, as a fold over the visit list.
`skip` remembers the subtree currently being skipped: descendants of a
directory whose callback answered `SkipDir`, of an entry whose stat
failed, or of a non-directory are never handed to the callback.  A
`SkipDir` from a non-directory skips the rest of its parent's subtree.  A
`fail` aborts the walk and becomes `filepath.Walk`'s return value. -/
def runVisits (cb : σ → Path → Except GoErr FileInfo → σ × FnRes) :
    σ → Option Path → List (Path × Except GoErr FileInfo) → σ × Option GoErr
  | s, _, [] => (s, none)
  | s, skip, (p, st) :: rest =>
    if (match skip with | some q => pathUnder q p | none => false) then
      runVisits cb s skip rest
    else
      match st with
      | .error e =>
        match cb s p (.error e) with
        | (s', .fail e') => (s', some e')
        | (s', _) => runVisits cb s' (some p) rest
      | .ok info =>
        match cb s p (.ok info) with
        | (s', .fail e') => (s', some e')
        | (s', .skipDir) =>
          runVisits cb s' (some (if info.isDir then p else p.dropLast)) rest
        | (s', .cont) =>
          if info.isDir then runVisits cb s' none rest
          else runVisits cb s' (some p) rest

/-- `filepath.Walk(root, cb)` with callback state `s`. -/
def goWalk (cb : σ → Path → Except GoErr FileInfo → σ × FnRes)
    (s : σ) (fs : FS) (root : Path) : σ × Option GoErr :=
  runVisits cb s none (walkVisits fs root)

/-- The walk function literal of the initial walk (filewatch.go lines
69-79): record every visited entry in `infos`; skip the contents of
subdirectories other than the root when `recurse` is false; abort on any
walk error. -/
def initialCb (recurse : Bool) (root : Path) (infos : Infos) (p : Path)
    (st : Except GoErr FileInfo) : Infos × FnRes :=
  match st with
  | .error e => (infos, .fail e)
  | .ok info =>
    let infos' := setKey infos p info
    if info.isDir && !recurse && decide (p ≠ root) then (infos', .skipDir)
    else (infos', .cont)

/-- The initial enumeration `filepath.Walk(root, ...)` of `Watch`. -/
def initialWalk (recurse : Bool) (fs : FS) (root : Path) : Infos × Option GoErr :=
  goWalk (initialCb recurse root) [] fs root

/-- The `Update` recorded for a newly discovered path (filewatch.go lines
87 and 126-130): `Prev` carries the just-observed metadata, `Next` stays
nil. -/
def addedUpdate (p : Path) (i : FileInfo) : Update :=
  { absPath := p, prev := some i, next := none, error := none,
    wasRemoved := false, wasAdded := true }

/-- The `Update` recorded when a stat fails during a tick (filewatch.go
lines 107-112). -/
def removedUpdate (p : Path) (prv : FileInfo) (e : GoErr) : Update :=
  { absPath := p, prev := some prv, next := none, error := some e,
    wasRemoved := true, wasAdded := false }

/-- The `Update` recorded for an in-place change (filewatch.go line 114),
as it reaches the `discovered` slice: `Error` is nil there, because line
116 copies the struct into the slice before line 121 writes the sub-walk
error through the pointer `up`. -/
def changedUpdate (p : Path) (prv nxt : FileInfo) : Update :=
  { absPath := p, prev := some prv, next := some nxt, error := none,
    wasRemoved := false, wasAdded := false }

/-- The walk function literal of the per-tick discovery sub-walk
(filewatch.go lines 121-136): paths not yet tracked are added to `infos`
and reported with `WasAdded = true`; a newly found directory is not
descended into when `recurse` is false; any walk error aborts the
sub-walk. -/
def discoverCb (recurse : Bool) (s : Infos × List Update) (p : Path)
    (st : Except GoErr FileInfo) : (Infos × List Update) × FnRes :=
  match st with
  | .error e => (s, .fail e)
  | .ok i =>
    match lookupKey s.1 p with
    | some _ => (s, .cont)
    | none =>
      if i.isDir && !recurse then
        ((setKey s.1 p i, s.2 ++ [addedUpdate p i]), .skipDir)
      else ((setKey s.1 p i, s.2 ++ [addedUpdate p i]), .cont)

/-- Processing of one tracked entry `(path, prev)` during a tick
(filewatch.go lines 101-138).  The accumulator carries the mutable
`infos` map and the `discovered` slice.

Note on line 116 of the source: `discovered = append(discovered, *up)`
copies the `Update` value into the slice *before* line 121 assigns the
sub-walk's result to `up.Error`; the assignment mutates only the local
copy, so the error returned by the discovery sub-walk never reaches the
delivered batch.  The model mirrors this by discarding the walk's error
component. -/
def processEntry (recurse : Bool) (fs : FS) (acc : Infos × List Update)
    (entry : Path × FileInfo) : Infos × List Update :=
  match statFS fs entry.1 with
  | .error err =>
    ((if err.isNotExist then eraseKey acc.1 entry.1 else acc.1),
      acc.2 ++ [removedUpdate entry.1 entry.2 err])
  | .ok nxt =>
    if entry.2.modTime < nxt.modTime ∨ entry.2.size ≠ nxt.size then
      if nxt.isDir then
        (goWalk (discoverCb recurse)
          (setKey acc.1 entry.1 nxt, acc.2 ++ [changedUpdate entry.1 entry.2 nxt])
          fs entry.1).1
      else (setKey acc.1 entry.1 nxt, acc.2 ++ [changedUpdate entry.1 entry.2 nxt])
    else acc

/-- One full tick of the scan loop (filewatch.go lines 99-139): iterate
over the tracked set as it stood when the tick fired, threading the
mutating `infos` map and accumulating `discovered`. -/
def scanTick (recurse : Bool) (fs : FS) (infos : Infos) : Infos × List Update :=
  infos.foldl (processEntry recurse fs) (infos, [])

/-- What `Watch` returns on success, together with the initial batch the
goroutine sends before entering its loop. -/
structure WatchResult where
  tick : Int
  infos : Infos
  initialBatch : List Update
deriving DecidableEq, Repr

/-- The initial batch (filewatch.go lines 85-90): one `Update` per
tracked entry, `WasAdded = true`, `Prev` the just-observed metadata. -/
def initialBatchOf (infos : Infos) : List Update :=
  infos.map (fun e => addedUpdate e.1 e.2)

/-- The default scan interval, `2 * time.Second`, in nanoseconds. -/
def defaultTick : Int := 2 * 1000000000

/-- Setup from a successfully resolved root onwards: run the initial
walk; on a walk error fail with it (nothing tracked, no goroutine),
otherwise succeed. -/
def watchGo (recurse : Bool) (fs : FS) (root : Path) (tick : Int) :
    Except GoErr WatchResult :=
  match initialWalk recurse fs root with
  | (_, some e) => .error e
  | (infos, none) => .ok ⟨tick, infos, initialBatchOf infos⟩

/-- `Watch` (filewatch.go lines 50-82): resolve the path (the host's
`filepath.Abs` outcome is the parameter `absRoot`), validate an explicit
interval, run the initial walk; errors in that order. -/
def Watch (absRoot : Except GoErr Path) (recurse : Bool)
    (interval : Option Int) (fs : FS) : Except GoErr WatchResult :=
  match absRoot with
  | .error e => .error e
  | .ok root =>
    match interval with
    | some iv =>
      if iv ≤ 0 then
        .error (.other "Watch: interval may not be less than or equal to zero")
      else watchGo recurse fs root iv
    | none => watchGo recurse fs root defaultTick

/-- Which branch one iteration of the goroutine's `select` took: the
ticker fired (observing filesystem state `fs`), or the `done` channel
delivered/closed. -/
inductive Choice where
  | tickFire (fs : FS)
  | doneRecv

/-- One iteration of the `select` (filewatch.go lines 97-145):
`doneReady` records whether the `done` channel was ready at that moment;
`choice` is the branch the `select` chose.  Go chooses pseudo-randomly
among ready branches, so `doneReady = true` with a `tickFire` choice is a
legal behaviour whenever the ticker was also ready. -/
structure SelectStep where
  doneReady : Bool
  choice : Choice

/-- A step is a possible `select` outcome: the `done` branch can only be
chosen when the `done` channel is ready. -/
def stepOk (st : SelectStep) : Bool :=
  match st.choice with
  | .tickFire _ => true
  | .doneRecv => st.doneReady

/-- The goroutine's loop: each consumed step either runs a scan tick
(sending `discovered` as a batch only when non-empty) or returns on
`done`, after which the `updates` channel is closed and nothing more is
ever sent.  The result is the list of delivered batches. -/
def runLoop (recurse : Bool) : Infos → List SelectStep → List (List Update)
  | _, [] => []
  | infos, st :: rest =>
    match st.choice with
    | .doneRecv => []
    | .tickFire fs =>
      let out := scanTick recurse fs infos
      if out.2.length > 0 then out.2 :: runLoop recurse out.1 rest
      else runLoop recurse out.1 rest

/-- Everything a session delivers on its `updates` channel: the initial
batch (sent before the ticker starts), then the loop's batches. -/
def sessionBatches (recurse : Bool) (w : WatchResult)
    (steps : List SelectStep) : List (List Update) :=
  w.initialBatch :: runLoop recurse w.infos steps

/-- The keys of the tracked set. -/
def keysOf (m : Infos) : List Path :=
  m.map Prod.fst

/-- The two per-event invariants of the spec's data model: `previous` is
always present, and `wasAdded`/`wasRemoved` are mutually exclusive. -/
def updOk (u : Update) : Prop :=
  u.prev ≠ none ∧ ¬(u.wasAdded = true ∧ u.wasRemoved = true)

/-! ### Concrete snapshots used for witnesses and counterexamples -/

/-- A single watched plain file. -/
def exFile : FileInfo := ⟨false, 3, 10⟩

/-- A one-file filesystem for setting up a tiny session. -/
def exFS : FS := [(["w"], .ok exFile)]

/-- The `Watch` result for `exFS` (computed by the model). -/
def exResult : WatchResult :=
  ⟨defaultTick, [(["w"], exFile)], [addedUpdate ["w"] exFile]⟩

/-- One tick in which the watched file of `exFS` has been rewritten. -/
def exSteps : List SelectStep :=
  [⟨false, .tickFire [(["w"], .ok ⟨false, 9, 11⟩)]⟩]

/-- Change-detection example: stored snapshot of a file. -/
def c2old : FileInfo := ⟨false, 1, 7⟩

/-- Change-detection example: freshly statted snapshot, later mtime. -/
def c2new : FileInfo := ⟨false, 5, 7⟩

/-- Filesystem in which the watched file has a newer modification time. -/
def c2fs : FS := [(["x"], .ok c2new)]

/-- Removal example: last known metadata of a now-deleted file. -/
def c3prv : FileInfo := ⟨false, 0, 1⟩

/-- A tracked directory before it changes. -/
def c4dirOld : FileInfo := ⟨true, 0, 0⟩

/-- The same directory after its metadata changed. -/
def c4dirNew : FileInfo := ⟨true, 9, 0⟩

/-- A stat failure that is not a not-exist error. -/
def c4err : GoErr := .other "permission denied"

/-- Filesystem in which the changed directory has a child whose stat
fails, so the discovery sub-walk aborts with `c4err`. -/
def c4fs : FS := [(["r"], .ok c4dirNew), (["r", "bad"], .error c4err)]

/-- Tracked set containing only the directory, with its old metadata. -/
def c4infos : Infos := [(["r"], c4dirOld)]

/-- Watched root directory `r`. -/
def c5dirR : FileInfo := ⟨true, 0, 0⟩

/-- Subdirectory `r/s` as first enumerated. -/
def c5dirS0 : FileInfo := ⟨true, 0, 0⟩

/-- Subdirectory `r/s` after a file was created inside it. -/
def c5dirS1 : FileInfo := ⟨true, 5, 0⟩

/-- The file created inside the subdirectory `r/s`. -/
def c5file : FileInfo := ⟨false, 5, 7⟩

/-- Initial filesystem: root `r` with subdirectory `r/s`. -/
def c5fs0 : FS := [(["r"], .ok c5dirR), (["r", "s"], .ok c5dirS0)]

/-- Filesystem one tick later: `r/s/f` was created, bumping `r/s`. -/
def c5fs1 : FS :=
  [(["r"], .ok c5dirR), (["r", "s"], .ok c5dirS1), (["r", "s", "f"], .ok c5file)]

/-- A tracked plain file for the cancellation counterexample. -/
def c8infos : Infos := [(["r"], ⟨false, 0, 1⟩)]

/-- The same file one tick later, with a newer modification time. -/
def c8fs : FS := [(["r"], .ok ⟨false, 1, 1⟩)]

/-- A `select` trace in which the `done` channel is ready at every
iteration, yet the first iteration chooses the ticker branch — a legal
outcome of Go's pseudo-random `select`. -/
def c8steps : List SelectStep :=
  [⟨true, .tickFire c8fs⟩, ⟨true, .doneRecv⟩]

/-! ### Lemmas about the tracked-set association list -/

theorem keysOf_cons (a : Path) (b : FileInfo) (rest : Infos) :
    keysOf ((a, b) :: rest) = a :: keysOf rest := rfl

theorem setKey_cons_eq {k' k : Path} (v' : FileInfo) (rest : Infos) (v : FileInfo)
    (h : k' = k) : setKey ((k', v') :: rest) k v = (k, v) :: rest := by
  simp [setKey, h]

theorem setKey_cons_ne {k' k : Path} (v' : FileInfo) (rest : Infos) (v : FileInfo)
    (h : ¬ k' = k) : setKey ((k', v') :: rest) k v = (k', v') :: setKey rest k v := by
  simp [setKey, h]

theorem lookupKey_cons_eq {k' q : Path} (v' : FileInfo) (rest : Infos)
    (h : k' = q) : lookupKey ((k', v') :: rest) q = some v' := by
  simp [lookupKey, h]

theorem lookupKey_cons_ne {k' q : Path} (v' : FileInfo) (rest : Infos)
    (h : ¬ k' = q) : lookupKey ((k', v') :: rest) q = lookupKey rest q := by
  simp [lookupKey, h]

theorem lookupKey_setKey_self (m : Infos) (k : Path) (v : FileInfo) :
    lookupKey (setKey m k v) k = some v := by
  induction m with
  | nil => simp [setKey, lookupKey]
  | cons e rest ih =>
    obtain ⟨k', v'⟩ := e
    by_cases h : k' = k
    · rw [setKey_cons_eq v' rest v h, lookupKey_cons_eq v rest rfl]
    · rw [setKey_cons_ne v' rest v h, lookupKey_cons_ne v' _ h, ih]

theorem lookupKey_setKey_ne (m : Infos) (k q : Path) (v : FileInfo)
    (h : q ≠ k) : lookupKey (setKey m k v) q = lookupKey m q := by
  induction m with
  | nil =>
    have hkq : ¬ k = q := fun hh => h hh.symm
    simp [setKey, lookupKey, hkq]
  | cons e rest ih =>
    obtain ⟨k', v'⟩ := e
    by_cases hk : k' = k
    · rw [setKey_cons_eq v' rest v hk,
        lookupKey_cons_ne v rest (fun hh => h hh.symm),
        lookupKey_cons_ne v' rest (fun hh => h (hh.symm.trans hk))]
    · rw [setKey_cons_ne v' rest v hk]
      by_cases hq : k' = q
      · rw [lookupKey_cons_eq v' _ hq, lookupKey_cons_eq v' rest hq]
      · rw [lookupKey_cons_ne v' _ hq, lookupKey_cons_ne v' rest hq, ih]

theorem mem_keysOf_setKey {m : Infos} {k q : Path} {v : FileInfo}
    (h : q ∈ keysOf (setKey m k v)) : q ∈ keysOf m ∨ q = k := by
  induction m with
  | nil =>
    right
    simpa [setKey, keysOf] using h
  | cons e rest ih =>
    obtain ⟨k', v'⟩ := e
    by_cases hk : k' = k
    · rw [setKey_cons_eq v' rest v hk, keysOf_cons] at h
      rcases List.mem_cons.mp h with h1 | h1
      · exact .inr h1
      · rw [keysOf_cons]
        exact .inl (List.mem_cons.mpr (.inr h1))
    · rw [setKey_cons_ne v' rest v hk, keysOf_cons] at h
      rw [keysOf_cons]
      rcases List.mem_cons.mp h with h1 | h1
      · exact .inl (List.mem_cons.mpr (.inl h1))
      · rcases ih h1 with h2 | h2
        · exact .inl (List.mem_cons.mpr (.inr h2))
        · exact .inr h2

theorem lookupKey_eq_none_iff (m : Infos) (q : Path) :
    lookupKey m q = none ↔ q ∉ keysOf m := by
  induction m with
  | nil => simp [lookupKey, keysOf]
  | cons e rest ih =>
    obtain ⟨k', v'⟩ := e
    rw [keysOf_cons]
    by_cases h : k' = q
    · rw [lookupKey_cons_eq v' rest h]
      simp [h]
    · rw [lookupKey_cons_ne v' rest h, ih, List.mem_cons]
      constructor
      · intro hn hor
        rcases hor with h1 | h1
        · exact h h1.symm
        · exact hn h1
      · intro hn h1
        exact hn (.inr h1)

theorem lookupKey_isSome_setKey {m : Infos} {k q : Path} {v : FileInfo}
    (h : lookupKey m q ≠ none) : lookupKey (setKey m k v) q ≠ none := by
  by_cases hq : q = k
  · subst hq
    simp [lookupKey_setKey_self]
  · rw [lookupKey_setKey_ne m k q v hq]
    exact h

theorem mem_keysOf_eraseKey {m : Infos} {k q : Path}
    (h : q ∈ keysOf (eraseKey m k)) : q ∈ keysOf m ∧ q ≠ k := by
  simp only [keysOf, eraseKey, List.mem_map] at h
  obtain ⟨e, he, hq⟩ := h
  have h1 := List.mem_of_mem_filter he
  have h2 := List.of_mem_filter he
  refine ⟨List.mem_map.mpr ⟨e, h1, hq⟩, ?_⟩
  subst hq
  simpa using h2

theorem lookupKey_eraseKey_self (m : Infos) (k : Path) :
    lookupKey (eraseKey m k) k = none := by
  rw [lookupKey_eq_none_iff]
  intro h
  exact (mem_keysOf_eraseKey h).2 rfl

theorem nodup_keysOf_setKey {m : Infos} {k : Path} {v : FileInfo}
    (h : (keysOf m).Nodup) : (keysOf (setKey m k v)).Nodup := by
  induction m with
  | nil => simp [setKey, keysOf]
  | cons e rest ih =>
    obtain ⟨k', v'⟩ := e
    rw [keysOf_cons, List.nodup_cons] at h
    by_cases hk : k' = k
    · rw [setKey_cons_eq v' rest v hk, keysOf_cons, List.nodup_cons]
      exact ⟨hk ▸ h.1, h.2⟩
    · rw [setKey_cons_ne v' rest v hk, keysOf_cons, List.nodup_cons]
      refine ⟨fun hmem => ?_, ih h.2⟩
      rcases mem_keysOf_setKey hmem with h1 | h1
      · exact h.1 h1
      · exact hk h1

theorem lookupKey_of_mem_nodup {m : Infos} {q : Path} {v : FileInfo}
    (hn : (keysOf m).Nodup) (h : (q, v) ∈ m) : lookupKey m q = some v := by
  induction m with
  | nil => simp at h
  | cons e rest ih =>
    obtain ⟨k', v'⟩ := e
    rw [keysOf_cons, List.nodup_cons] at hn
    rcases List.mem_cons.mp h with h1 | h1
    · have hk : q = k' := congrArg Prod.fst h1
      have hv : v = v' := congrArg Prod.snd h1
      rw [lookupKey_cons_eq v' rest hk.symm, hv]
    · have hq : q ∈ keysOf rest := List.mem_map.mpr ⟨(q, v), h1, rfl⟩
      have hk : ¬ k' = q := fun hh => hn.1 (by rw [hh]; exact hq)
      rw [lookupKey_cons_ne v' rest hk]
      exact ih hn.2 h1

theorem setKey_ne_nil (m : Infos) (k : Path) (v : FileInfo) :
    setKey m k v ≠ [] := by
  cases m with
  | nil => simp [setKey]
  | cons e rest =>
    obtain ⟨k', v'⟩ := e
    by_cases h : k' = k <;> simp [setKey, h]

/-! ### Lemmas about sorting and walk visits -/

theorem mem_insSorted {le : α → α → Bool} {x y : α} {l : List α} :
    y ∈ insSorted le x l ↔ y = x ∨ y ∈ l := by
  induction l with
  | nil => simp [insSorted]
  | cons z zs ih =>
    by_cases h : le x z = true
    · simp [insSorted, h]
    · simp only [insSorted, h]
      rw [if_neg (by simp [h])]
      simp only [List.mem_cons, ih]
      tauto

theorem mem_insSort {le : α → α → Bool} {y : α} {l : List α} :
    y ∈ insSort le l ↔ y ∈ l := by
  induction l with
  | nil => simp [insSort]
  | cons z zs ih => simp [insSort, mem_insSorted, ih]

theorem mem_walkVisits {fs : FS} {root p : Path} {st : Except GoErr FileInfo}
    (h : (p, st) ∈ walkVisits fs root) : p = root ∨ p ∈ fs.map Prod.fst := by
  rcases List.mem_cons.mp h with h1 | h1
  · exact .inl (congrArg Prod.fst h1)
  · right
    have h2 := mem_insSort.mp h1
    have h3 := List.mem_of_mem_filter h2
    exact List.mem_map.mpr ⟨(p, st), h3, rfl⟩

/-! ### A generic invariant for the walk engine -/

theorem runVisits_inv {σ : Type} (cb : σ → Path → Except GoErr FileInfo → σ × FnRes)
    (P : σ → Prop) :
    ∀ (vs : List (Path × Except GoErr FileInfo)) (s : σ) (skip : Option Path),
      (∀ s' p st, (p, st) ∈ vs → P s' → P (cb s' p st).1) →
      P s → P (runVisits cb s skip vs).1 := by
  intro vs
  induction vs with
  | nil =>
    intro s skip _ h
    simpa [runVisits] using h
  | cons v rest ih =>
    intro s skip hcb h
    obtain ⟨p, st⟩ := v
    have hcb' : ∀ s' p' st', (p', st') ∈ rest → P s' → P (cb s' p' st').1 :=
      fun s' p' st' hm => hcb s' p' st' (List.mem_cons_of_mem _ hm)
    have hstep : P (cb s p st).1 := hcb s p st (List.mem_cons_self _ _) h
    simp only [runVisits]
    split
    · exact ih s skip hcb' h
    · cases st with
      | error e =>
        rcases hc : cb s p (.error e) with ⟨s', fr⟩
        have hs' : P s' := by
          have := hstep
          rw [hc] at this
          exact this
        cases fr with
        | cont => simpa [hc] using ih s' (some p) hcb' hs'
        | skipDir => simpa [hc] using ih s' (some p) hcb' hs'
        | fail e' => simpa [hc] using hs'
      | ok info =>
        rcases hc : cb s p (.ok info) with ⟨s', fr⟩
        have hs' : P s' := by
          have := hstep
          rw [hc] at this
          exact this
        cases fr with
        | cont =>
          by_cases hd : info.isDir = true
          · simpa [hc, hd] using ih s' none hcb' hs'
          · simpa [hc, hd] using ih s' (some p) hcb' hs'
        | skipDir =>
          simpa [hc] using
            ih s' (some (if info.isDir then p else p.dropLast)) hcb' hs'
        | fail e' => simpa [hc] using hs'

/-- A fold invariant that may use membership of the folded list. -/
theorem foldl_inv {β α : Type} (f : β → α → β) (P : β → Prop) :
    ∀ (l : List α) (b : β),
      (∀ b' a, a ∈ l → P b' → P (f b' a)) → P b → P (List.foldl f b l) := by
  intro l
  induction l with
  | nil =>
    intro b _ h
    simpa using h
  | cons a rest ih =>
    intro b hf h
    simp only [List.foldl_cons]
    exact ih (f b a) (fun b' a' hm => hf b' a' (List.mem_cons_of_mem _ hm))
      (hf b a (List.mem_cons_self _ _) h)

/-! ### The state shapes of the two walk callbacks -/

theorem initialCb_state (r : Bool) (root : Path) (s : Infos) (p : Path)
    (st : Except GoErr FileInfo) :
    (initialCb r root s p st).1 =
      (match st with | .error _ => s | .ok i => setKey s p i) := by
  cases st with
  | error e => rfl
  | ok i =>
    simp only [initialCb]
    split <;> rfl

theorem discoverCb_state (r : Bool) (s : Infos × List Update) (p : Path)
    (st : Except GoErr FileInfo) :
    (discoverCb r s p st).1 =
      (match st with
       | .error _ => s
       | .ok i =>
         match lookupKey s.1 p with
         | some _ => s
         | none => (setKey s.1 p i, s.2 ++ [addedUpdate p i])) := by
  cases st with
  | error e => rfl
  | ok i =>
    simp only [discoverCb]
    cases lookupKey s.1 p with
    | some v => rfl
    | none =>
      by_cases hd : (i.isDir && !r) = true
      · rw [if_pos hd]
      · rw [if_neg hd]

theorem updOk_addedUpdate (p : Path) (i : FileInfo) : updOk (addedUpdate p i) := by
  simp [updOk, addedUpdate]

theorem updOk_removedUpdate (p : Path) (v : FileInfo) (e : GoErr) :
    updOk (removedUpdate p v e) := by
  simp [updOk, removedUpdate]

theorem updOk_changedUpdate (p : Path) (v nxt : FileInfo) :
    updOk (changedUpdate p v nxt) := by
  simp [updOk, changedUpdate]

/-! ### Invariants of the discovery sub-walk -/

theorem discover_updOk (r : Bool) (fs : FS) (root : Path)
    (s : Infos × List Update) (h : ∀ u ∈ s.2, updOk u) :
    ∀ u ∈ (goWalk (discoverCb r) s fs root).1.2, updOk u := by
  refine runVisits_inv _ (fun s' => ∀ u ∈ s'.2, updOk u) _ s none
    (fun s' p st _ hs => ?_) h
  rw [discoverCb_state]
  cases st with
  | error e => exact hs
  | ok i =>
    cases hl : lookupKey s'.1 p with
    | some v => exact hs
    | none =>
      intro u hu
      rcases List.mem_append.mp hu with h1 | h1
      · exact hs u h1
      · exact (List.mem_singleton.mp h1) ▸ updOk_addedUpdate p i

theorem discover_no_path (r : Bool) (fs : FS) (root q : Path)
    (hq2 : q ∉ fs.map Prod.fst) (hroot : root ≠ q) (s : Infos × List Update)
    (h : q ∉ keysOf s.1 ∧ ∀ u ∈ s.2, u.absPath ≠ q) :
    q ∉ keysOf (goWalk (discoverCb r) s fs root).1.1 ∧
      ∀ u ∈ (goWalk (discoverCb r) s fs root).1.2, u.absPath ≠ q := by
  refine runVisits_inv _
    (fun s' => q ∉ keysOf s'.1 ∧ ∀ u ∈ s'.2, u.absPath ≠ q) _ s none
    (fun s' p st hmem hs => ?_) h
  have hp : p ≠ q := by
    rcases mem_walkVisits hmem with h1 | h1
    · exact h1 ▸ hroot
    · intro hh
      exact hq2 (hh ▸ h1)
  rw [discoverCb_state]
  cases st with
  | error e => exact hs
  | ok i =>
    cases hl : lookupKey s'.1 p with
    | some v => exact hs
    | none =>
      refine ⟨fun hmem' => ?_, fun u hu => ?_⟩
      · rcases mem_keysOf_setKey hmem' with h1 | h1
        · exact hs.1 h1
        · exact hp h1.symm
      · rcases List.mem_append.mp hu with h1 | h1
        · exact hs.2 u h1
        · rw [List.mem_singleton.mp h1]
          exact fun hh => hp hh

theorem discover_keeps_entry (r : Bool) (fs : FS) (root p : Path)
    (nxt : FileInfo) (base : List Update) (s : Infos × List Update)
    (h : lookupKey s.1 p = some nxt ∧
      ∃ tail, s.2 = base ++ tail ∧ ∀ u ∈ tail, u.wasAdded = true ∧ u.absPath ≠ p) :
    lookupKey (goWalk (discoverCb r) s fs root).1.1 p = some nxt ∧
      ∃ tail, (goWalk (discoverCb r) s fs root).1.2 = base ++ tail ∧
        ∀ u ∈ tail, u.wasAdded = true ∧ u.absPath ≠ p := by
  refine runVisits_inv _
    (fun s' => lookupKey s'.1 p = some nxt ∧
      ∃ tail, s'.2 = base ++ tail ∧ ∀ u ∈ tail, u.wasAdded = true ∧ u.absPath ≠ p)
    _ s none (fun s' p' st _ hs => ?_) h
  rw [discoverCb_state]
  cases st with
  | error e => exact hs
  | ok i =>
    cases hl : lookupKey s'.1 p' with
    | some v => exact hs
    | none =>
      have hne : p ≠ p' := by
        intro hh
        rw [hh, hl] at hs
        exact Option.noConfusion hs.1
      obtain ⟨htail, ⟨tail, hteq, htprop⟩⟩ := hs
      refine ⟨?_, tail ++ [addedUpdate p' i], ?_, ?_⟩
      · rw [lookupKey_setKey_ne s'.1 p' p i hne]
        exact htail
      · show s'.2 ++ [addedUpdate p' i] = base ++ (tail ++ [addedUpdate p' i])
        rw [hteq, List.append_assoc]
      · intro u hu
        rcases List.mem_append.mp hu with h1 | h1
        · exact htprop u h1
        · rw [List.mem_singleton.mp h1]
          exact ⟨rfl, fun hh => hne (hh.symm)⟩

/-! ### Invariants of a whole scan tick -/

theorem processEntry_updOk (r : Bool) (fs : FS) (acc : Infos × List Update)
    (entry : Path × FileInfo) (h : ∀ u ∈ acc.2, updOk u) :
    ∀ u ∈ (processEntry r fs acc entry).2, updOk u := by
  cases hst : statFS fs entry.1 with
  | error err =>
    simp only [processEntry, hst]
    intro u hu
    rcases List.mem_append.mp hu with h1 | h1
    · exact h u h1
    · exact (List.mem_singleton.mp h1) ▸ updOk_removedUpdate entry.1 entry.2 err
  | ok nxt =>
    simp only [processEntry, hst]
    have hbase : ∀ u ∈ acc.2 ++ [changedUpdate entry.1 entry.2 nxt], updOk u := by
      intro u hu
      rcases List.mem_append.mp hu with h1 | h1
      · exact h u h1
      · exact (List.mem_singleton.mp h1) ▸ updOk_changedUpdate entry.1 entry.2 nxt
    by_cases hc : entry.2.modTime < nxt.modTime ∨ entry.2.size ≠ nxt.size
    · rw [if_pos hc]
      by_cases hd : nxt.isDir = true
      · rw [if_pos hd]
        exact discover_updOk r fs entry.1
          (setKey acc.1 entry.1 nxt, acc.2 ++ [changedUpdate entry.1 entry.2 nxt]) hbase
      · rw [if_neg hd]
        exact hbase
    · rw [if_neg hc]
      exact h

theorem scanTick_updOk (r : Bool) (fs : FS) (infos : Infos) :
    ∀ u ∈ (scanTick r fs infos).2, updOk u := by
  unfold scanTick
  refine foldl_inv _ (fun acc => ∀ u ∈ acc.2, updOk u) infos (infos, [])
    (fun b a _ hb => processEntry_updOk r fs b a hb) ?_
  simp

theorem processEntry_no_path (r : Bool) (fs : FS) (q : Path)
    (hq2 : q ∉ fs.map Prod.fst) (acc : Infos × List Update)
    (entry : Path × FileInfo) (hentry : entry.1 ≠ q)
    (h : q ∉ keysOf acc.1 ∧ ∀ u ∈ acc.2, u.absPath ≠ q) :
    q ∉ keysOf (processEntry r fs acc entry).1 ∧
      ∀ u ∈ (processEntry r fs acc entry).2, u.absPath ≠ q := by
  cases hst : statFS fs entry.1 with
  | error err =>
    simp only [processEntry, hst]
    refine ⟨?_, fun u hu => ?_⟩
    · show q ∉ keysOf (if err.isNotExist then eraseKey acc.1 entry.1 else acc.1)
      by_cases hne : err.isNotExist = true
      · rw [if_pos hne]
        intro hmem
        exact h.1 (mem_keysOf_eraseKey hmem).1
      · rw [if_neg hne]
        exact h.1
    · rcases List.mem_append.mp hu with h1 | h1
      · exact h.2 u h1
      · rw [List.mem_singleton.mp h1]
        exact fun hh => hentry hh
  | ok nxt =>
    simp only [processEntry, hst]
    have hset : q ∉ keysOf (setKey acc.1 entry.1 nxt) := by
      intro hmem
      rcases mem_keysOf_setKey hmem with h1 | h1
      · exact h.1 h1
      · exact hentry h1.symm
    have hups : ∀ u ∈ acc.2 ++ [changedUpdate entry.1 entry.2 nxt], u.absPath ≠ q := by
      intro u hu
      rcases List.mem_append.mp hu with h1 | h1
      · exact h.2 u h1
      · rw [List.mem_singleton.mp h1]
        exact fun hh => hentry hh
    by_cases hc : entry.2.modTime < nxt.modTime ∨ entry.2.size ≠ nxt.size
    · rw [if_pos hc]
      by_cases hd : nxt.isDir = true
      · rw [if_pos hd]
        exact discover_no_path r fs entry.1 q hq2 hentry
          (setKey acc.1 entry.1 nxt, acc.2 ++ [changedUpdate entry.1 entry.2 nxt])
          ⟨hset, hups⟩
      · rw [if_neg hd]
        exact ⟨hset, hups⟩
    · rw [if_neg hc]
      exact h

theorem scanTick_no_path (r : Bool) (fs : FS) (infos : Infos) (q : Path)
    (hq1 : q ∉ keysOf infos) (hq2 : q ∉ fs.map Prod.fst) :
    q ∉ keysOf (scanTick r fs infos).1 ∧
      ∀ u ∈ (scanTick r fs infos).2, u.absPath ≠ q := by
  unfold scanTick
  refine foldl_inv _
    (fun acc : Infos × List Update => q ∉ keysOf acc.1 ∧ ∀ u ∈ acc.2, u.absPath ≠ q)
    infos (infos, []) (fun b a hm hb => ?_) ⟨hq1, by simp⟩
  have hentry : a.1 ≠ q := by
    intro hh
    exact hq1 (List.mem_map.mpr ⟨a, hm, hh⟩)
  exact processEntry_no_path r fs q hq2 b a hentry hb

theorem runLoop_no_path (r : Bool) (q : Path) :
    ∀ (steps : List SelectStep) (infos : Infos), q ∉ keysOf infos →
      (∀ st ∈ steps, ∀ fs', st.choice = Choice.tickFire fs' → q ∉ fs'.map Prod.fst) →
      ∀ b ∈ runLoop r infos steps, ∀ u ∈ b, u.absPath ≠ q := by
  intro steps
  induction steps with
  | nil =>
    intro infos _ _ b hb
    simp [runLoop] at hb
  | cons st rest ih =>
    intro infos hq hsteps b hb
    obtain ⟨d, ch⟩ := st
    cases ch with
    | doneRecv => simp [runLoop] at hb
    | tickFire fs =>
      have hfs : q ∉ fs.map Prod.fst :=
        hsteps ⟨d, .tickFire fs⟩ (List.mem_cons_self _ _) fs rfl
      have hout := scanTick_no_path r fs infos q hq hfs
      have hrest : ∀ st' ∈ rest, ∀ fs', st'.choice = Choice.tickFire fs' →
          q ∉ fs'.map Prod.fst :=
        fun st' hm => hsteps st' (List.mem_cons_of_mem _ hm)
      simp only [runLoop] at hb
      by_cases hl : (scanTick r fs infos).2.length > 0
      · rw [if_pos hl] at hb
        rcases List.mem_cons.mp hb with h1 | h1
        · intro u hu
          exact hout.2 u (h1 ▸ hu)
        · exact ih _ hout.1 hrest b h1
      · rw [if_neg hl] at hb
        exact ih _ hout.1 hrest b hb

/-! ### Head-step reductions of the walk engine and setup facts -/

theorem runVisits_cons_ok_cont {σ : Type}
    (cb : σ → Path → Except GoErr FileInfo → σ × FnRes) (s : σ) (p : Path)
    (info : FileInfo) (rest : List (Path × Except GoErr FileInfo)) (s' : σ)
    (hcb : cb s p (.ok info) = (s', FnRes.cont)) :
    runVisits cb s none ((p, .ok info) :: rest) =
      (if info.isDir then runVisits cb s' none rest
       else runVisits cb s' (some p) rest) := by
  simp [runVisits, hcb]

theorem runVisits_cons_fail {σ : Type}
    (cb : σ → Path → Except GoErr FileInfo → σ × FnRes) (s : σ) (p : Path)
    (e : GoErr) (rest : List (Path × Except GoErr FileInfo)) (s' : σ) (e' : GoErr)
    (hcb : cb s p (.error e) = (s', FnRes.fail e')) :
    runVisits cb s none ((p, .error e) :: rest) = (s', some e') := by
  simp [runVisits, hcb]

theorem initialWalk_nodup_keys (r : Bool) (fs : FS) (root : Path) :
    (keysOf (initialWalk r fs root).1).Nodup := by
  refine runVisits_inv _ (fun s : Infos => (keysOf s).Nodup) _ [] none
    (fun s p st _ hs => ?_) (by simp [keysOf])
  rw [initialCb_state]
  cases st with
  | error e => exact hs
  | ok i => exact nodup_keysOf_setKey hs

theorem initialWalk_ne_nil (r : Bool) (fs : FS) (root : Path)
    (h : (initialWalk r fs root).2 = none) : (initialWalk r fs root).1 ≠ [] := by
  have hrw : initialWalk r fs root =
      runVisits (initialCb r root) [] none ((root, statFS fs root) ::
        insSort (fun a b => lexLe a.1 b.1)
          (fs.filter (fun e => pathUnder root e.1 && decide (e.1 ≠ root)))) := rfl
  rw [hrw] at h ⊢
  cases hst : statFS fs root with
  | error e =>
    rw [hst] at h
    rw [runVisits_cons_fail (initialCb r root) [] root e _ [] e rfl] at h
    exact absurd h (by simp)
  | ok info =>
    have hcb : initialCb r root [] root (.ok info) = ([(root, info)], FnRes.cont) := by
      simp [initialCb, setKey]
    rw [runVisits_cons_ok_cont (initialCb r root) [] root info _ _ hcb]
    have hkeep : ∀ (sk : Option Path) (vs : List (Path × Except GoErr FileInfo)),
        (runVisits (initialCb r root) [(root, info)] sk vs).1 ≠ [] := by
      intro sk vs
      refine runVisits_inv _ (fun s : Infos => s ≠ []) vs _ sk
        (fun s p st _ hs => ?_) (by simp)
      rw [initialCb_state]
      cases st with
      | error e => exact hs
      | ok i => exact setKey_ne_nil s p i
    by_cases hd : info.isDir = true
    · rw [if_pos hd]
      exact hkeep none _
    · rw [if_neg hd]
      exact hkeep (some root) _

theorem watchGo_ok_elim {r : Bool} {fs : FS} {root : Path} {tick : Int}
    {w : WatchResult} (h : watchGo r fs root tick = .ok w) :
    (initialWalk r fs root).2 = none ∧
      w = ⟨tick, (initialWalk r fs root).1,
        initialBatchOf (initialWalk r fs root).1⟩ := by
  rcases hw : initialWalk r fs root with ⟨infos, werr⟩
  unfold watchGo at h
  rw [hw] at h
  cases werr with
  | some e => exact absurd h (by simp)
  | none =>
    injection h with h''
    subst h''
    exact ⟨rfl, rfl⟩

theorem watch_ok_elim {a : Except GoErr Path} {r : Bool} {iv : Option Int}
    {fs : FS} {w : WatchResult} (h : Watch a r iv fs = .ok w) :
    ∃ root, a = .ok root ∧ (initialWalk r fs root).2 = none ∧
      w.infos = (initialWalk r fs root).1 ∧
      w.initialBatch = initialBatchOf (initialWalk r fs root).1 ∧
      (iv = none → w.tick = defaultTick) := by
  cases a with
  | error e => exact absurd h (by simp [Watch])
  | ok root =>
    refine ⟨root, rfl, ?_⟩
    cases iv with
    | none =>
      have h' : watchGo r fs root defaultTick = .ok w := h
      obtain ⟨h1, h2⟩ := watchGo_ok_elim h'
      subst h2
      exact ⟨h1, rfl, rfl, fun _ => rfl⟩
    | some v =>
      have h' : Watch (.ok root) r (some v) fs = .ok w := h
      simp only [Watch] at h'
      by_cases hv : v ≤ 0
      · rw [if_pos hv] at h'
        exact absurd h' (by simp)
      · rw [if_neg hv] at h'
        obtain ⟨h1, h2⟩ := watchGo_ok_elim h'
        subst h2
        exact ⟨h1, rfl, rfl, fun hh => Option.noConfusion hh⟩

theorem runLoop_updOk (r : Bool) :
    ∀ (steps : List SelectStep) (infos : Infos),
      ∀ b ∈ runLoop r infos steps, ∀ u ∈ b, updOk u := by
  intro steps
  induction steps with
  | nil =>
    intro infos b hb
    simp [runLoop] at hb
  | cons st rest ih =>
    intro infos b hb
    obtain ⟨d, ch⟩ := st
    cases ch with
    | doneRecv => simp [runLoop] at hb
    | tickFire fs =>
      simp only [runLoop] at hb
      by_cases hl : (scanTick r fs infos).2.length > 0
      · rw [if_pos hl] at hb
        rcases List.mem_cons.mp hb with h1 | h1
        · intro u hu
          exact scanTick_updOk r fs infos u (h1 ▸ hu)
        · exact ih _ b h1
      · rw [if_neg hl] at hb
        exact ih _ b hb

/-! ### The claims -/

/-- C1: for every successfully started watch session, exactly one initial
batch is delivered before the periodic loop begins, and it contains
exactly one ChangeEvent per path of the tracked set built by the initial
walk, each with `wasAdded = true`, `previous` the just-observed metadata
of that path, and no `current` snapshot. -/
theorem c1_initial_batch (a : Except GoErr Path) (r : Bool) (iv : Option Int)
    (fs : FS) (w : WatchResult) (steps : List SelectStep)
    (h : Watch a r iv fs = .ok w) :
    sessionBatches r w steps = w.initialBatch :: runLoop r w.infos steps ∧
    w.initialBatch.map (fun u => u.absPath) = keysOf w.infos ∧
    (∀ u ∈ w.initialBatch, u.wasAdded = true ∧ u.wasRemoved = false ∧
      u.next = none ∧ u.error = none ∧ u.prev = lookupKey w.infos u.absPath) := by
  obtain ⟨root, ha, hwerr, hinfos, hbatch, _⟩ := watch_ok_elim h
  refine ⟨rfl, ?_, ?_⟩
  · rw [hbatch, hinfos]
    unfold initialBatchOf keysOf
    rw [List.map_map]
    rfl
  · intro u hu
    rw [hbatch] at hu
    unfold initialBatchOf at hu
    obtain ⟨e, he, heq⟩ := List.mem_map.mp hu
    subst heq
    refine ⟨rfl, rfl, rfl, rfl, ?_⟩
    show some e.2 = lookupKey w.infos e.1
    rw [hinfos]
    exact (lookupKey_of_mem_nodup (initialWalk_nodup_keys r fs root) he).symm

/-- Witness for C1 at a concrete one-file session. -/
theorem c1_initial_batch_witness :
    Watch (.ok ["w"]) false none exFS = .ok exResult ∧
    sessionBatches false exResult [] =
      exResult.initialBatch :: runLoop false exResult.infos [] ∧
    exResult.initialBatch.map (fun u => u.absPath) = keysOf exResult.infos ∧
    (∀ u ∈ exResult.initialBatch, u.wasAdded = true ∧ u.wasRemoved = false ∧
      u.next = none ∧ u.error = none ∧
      u.prev = lookupKey exResult.infos u.absPath) := by
  have h := c1_initial_batch (.ok ["w"]) false none exFS exResult [] (by rfl)
  exact ⟨by rfl, h.1, h.2.1, h.2.2⟩

/-- C2: for a tracked path whose per-tick stat succeeds, an
in-place-change ChangeEvent (`previous` = stored snapshot, `current` =
new snapshot, both flags false) is produced if and only if the new
modification time is strictly later or the new size differs, and exactly
then the stored snapshot is overwritten with the new one; otherwise no
event is produced for the path and the state is left unchanged. -/
theorem c2_change_predicate (r : Bool) (fs : FS) (infos : Infos)
    (ups : List Update) (p : Path) (prv nxt : FileInfo)
    (h : statFS fs p = .ok nxt) :
    ((prv.modTime < nxt.modTime ∨ prv.size ≠ nxt.size) →
      (∃ tail, (processEntry r fs (infos, ups) (p, prv)).2 =
          ups ++ changedUpdate p prv nxt :: tail ∧
          ∀ u ∈ tail, u.wasAdded = true ∧ u.absPath ≠ p) ∧
      lookupKey (processEntry r fs (infos, ups) (p, prv)).1 p = some nxt) ∧
    (¬(prv.modTime < nxt.modTime ∨ prv.size ≠ nxt.size) →
      processEntry r fs (infos, ups) (p, prv) = (infos, ups)) := by
  constructor
  · intro hc
    simp only [processEntry, h]
    rw [if_pos hc]
    by_cases hd : nxt.isDir = true
    · rw [if_pos hd]
      have hw := discover_keeps_entry r fs p p nxt
        (ups ++ [changedUpdate p prv nxt])
        (setKey infos p nxt, ups ++ [changedUpdate p prv nxt])
        ⟨lookupKey_setKey_self infos p nxt, [], by simp, by simp⟩
      obtain ⟨hl, tail, hteq, htprop⟩ := hw
      refine ⟨⟨tail, ?_, htprop⟩, hl⟩
      rw [hteq, List.append_assoc]
      rfl
    · rw [if_neg hd]
      exact ⟨⟨[], by simp, by simp⟩, lookupKey_setKey_self infos p nxt⟩
  · intro hc
    simp only [processEntry, h]
    rw [if_neg hc]

/-- Witness for C2: a file whose modification time advanced while the
size stayed equal produces exactly the in-place-change event and the
snapshot is overwritten. -/
theorem c2_change_predicate_witness :
    statFS c2fs ["x"] = .ok c2new ∧
    (∃ tail, (processEntry true c2fs ([(["x"], c2old)], []) (["x"], c2old)).2 =
        [] ++ changedUpdate ["x"] c2old c2new :: tail ∧
        ∀ u ∈ tail, u.wasAdded = true ∧ u.absPath ≠ ["x"]) ∧
    lookupKey (processEntry true c2fs ([(["x"], c2old)], []) (["x"], c2old)).1
      ["x"] = some c2new := by
  have h := c2_change_predicate true c2fs [(["x"], c2old)] [] ["x"] c2old c2new rfl
  have h1 := h.1 (by decide)
  exact ⟨rfl, h1.1, h1.2⟩

/-- C3: a tracked path whose per-tick stat fails is always reported with
`wasRemoved = true`, the stat error and the last known metadata; on a
confirmed not-exist failure the entry leaves the tracked set, on any
other failure it stays (and is hence re-statted next tick); and a path
that is out of the tracked set and absent from every later filesystem
snapshot appears in no subsequent batch. -/
theorem c3_stat_failure (r : Bool) (fs : FS) (infos : Infos)
    (ups : List Update) (p : Path) (prv : FileInfo) (e : GoErr)
    (h : statFS fs p = .error e) :
    processEntry r fs (infos, ups) (p, prv) =
      ((if e.isNotExist then eraseKey infos p else infos),
        ups ++ [removedUpdate p prv e]) ∧
    (e.isNotExist = true →
      lookupKey (processEntry r fs (infos, ups) (p, prv)).1 p = none) ∧
    (e.isNotExist = false →
      (processEntry r fs (infos, ups) (p, prv)).1 = infos) ∧
    (∀ (steps : List SelectStep) (infos' : Infos), p ∉ keysOf infos' →
      (∀ st ∈ steps, ∀ fs', st.choice = Choice.tickFire fs' →
        p ∉ fs'.map Prod.fst) →
      ∀ b ∈ runLoop r infos' steps, ∀ u ∈ b, u.absPath ≠ p) := by
  have heq : processEntry r fs (infos, ups) (p, prv) =
      ((if e.isNotExist then eraseKey infos p else infos),
        ups ++ [removedUpdate p prv e]) := by
    simp only [processEntry, h]
  refine ⟨heq, ?_, ?_, ?_⟩
  · intro hne
    rw [heq]
    show lookupKey (if e.isNotExist = true then eraseKey infos p else infos) p = none
    rw [if_pos hne]
    exact lookupKey_eraseKey_self infos p
  · intro hne
    rw [heq]
    show (if e.isNotExist = true then eraseKey infos p else infos) = infos
    simp [hne]
  · exact fun steps infos' h1 h2 => runLoop_no_path r p steps infos' h1 h2

/-- Witness for C3: a deleted file is reported once with
`wasRemoved = true` and is gone from the tracked set. -/
theorem c3_stat_failure_witness :
    statFS [] ["p"] = .error (.notExist ["p"]) ∧
    processEntry true [] ([(["p"], c3prv)], []) (["p"], c3prv) =
      (eraseKey [(["p"], c3prv)] ["p"],
        [removedUpdate ["p"] c3prv (.notExist ["p"])]) ∧
    lookupKey (processEntry true [] ([(["p"], c3prv)], []) (["p"], c3prv)).1
      ["p"] = none := by
  have h := c3_stat_failure true [] [(["p"], c3prv)] [] ["p"] c3prv
    (.notExist ["p"]) rfl
  refine ⟨rfl, ?_, h.2.1 rfl⟩
  simpa using h.1

/-- C4: the claim is that a discovery sub-walk failure is attached to the
`error` field of the delivered ChangeEvent of the triggering directory
and that no failure goes unreported.  The code computes the walk error
(`up.Error = filepath.Walk(...)`, line 121) only after `*up` was copied
into the `discovered` slice (line 116), so the delivered batch carries
`Error = nil` and the failure surfaces in no event at all: here the
sub-walk at the exact state the code runs it returns `c4err`, yet the
delivered batch is the change event for the directory with a nil error,
and every event of the batch has a nil error. -/
theorem c4_walk_error_dropped :
    (goWalk (discoverCb true)
        (setKey c4infos ["r"] c4dirNew, [changedUpdate ["r"] c4dirOld c4dirNew])
        c4fs ["r"]).2 = some c4err ∧
    (scanTick true c4fs c4infos).2 = [changedUpdate ["r"] c4dirOld c4dirNew] ∧
    (∀ u ∈ (scanTick true c4fs c4infos).2, u.error = none) := by
  decide

/-- C5: the claim is that with recursion disabled no delivered batch ever
contains a ChangeEvent for a file created inside a subdirectory of the
watched directory.  With `recurse = false` the initial walk indeed skips
the contents of subdirectory `r/s`, but the discovery sub-walk skips only
*newly discovered* directories (line 131), so when `r/s` itself changes,
the walk descends into it and the created file `r/s/f` is tracked and
reported with `wasAdded = true` in the delivered batch. -/
theorem c5_nonrecursive_descends :
    (initialWalk false c5fs0 ["r"]).1 =
      [(["r"], c5dirR), (["r", "s"], c5dirS0)] ∧
    (initialWalk false c5fs0 ["r"]).2 = none ∧
    runLoop false (initialWalk false c5fs0 ["r"]).1 [⟨false, .tickFire c5fs1⟩] =
      [[changedUpdate ["r", "s"] c5dirS0 c5dirS1,
        addedUpdate ["r", "s", "f"] c5file]] := by
  decide

/-- C6: a batch is delivered for a tick if and only if the tick's scan
produced at least one event, every loop batch is non-empty, and the
initial batch of a successful session is non-empty as well. -/
theorem c6_no_empty_batch (r : Bool) :
    (∀ (steps : List SelectStep) (infos : Infos),
      ∀ b ∈ runLoop r infos steps, b ≠ []) ∧
    (∀ (infos : Infos) (fs : FS) (d : Bool) (rest : List SelectStep),
      runLoop r infos (⟨d, Choice.tickFire fs⟩ :: rest) =
        (if (scanTick r fs infos).2 = []
         then runLoop r (scanTick r fs infos).1 rest
         else (scanTick r fs infos).2 :: runLoop r (scanTick r fs infos).1 rest)) ∧
    (∀ (a : Except GoErr Path) (iv : Option Int) (fs : FS) (w : WatchResult),
      Watch a r iv fs = .ok w → w.initialBatch ≠ []) := by
  refine ⟨?_, ?_, ?_⟩
  · intro steps
    induction steps with
    | nil =>
      intro infos b hb
      simp [runLoop] at hb
    | cons st rest ih =>
      intro infos b hb
      obtain ⟨d, ch⟩ := st
      cases ch with
      | doneRecv => simp [runLoop] at hb
      | tickFire fs =>
        simp only [runLoop] at hb
        by_cases hl : (scanTick r fs infos).2.length > 0
        · rw [if_pos hl] at hb
          rcases List.mem_cons.mp hb with h1 | h1
          · subst h1
            exact List.length_pos.mp hl
          · exact ih _ b h1
        · rw [if_neg hl] at hb
          exact ih _ b hb
  · intro infos fs d rest
    simp only [runLoop]
    by_cases he : (scanTick r fs infos).2 = []
    · rw [if_neg (by simp [he]), if_pos he]
    · rw [if_pos (List.length_pos.mpr he), if_neg he]
  · intro a iv fs w h hnil
    obtain ⟨root, _, hwerr, _, hbatch, _⟩ := watch_ok_elim h
    rw [hbatch] at hnil
    unfold initialBatchOf at hnil
    exact initialWalk_ne_nil r fs root hwerr (List.map_eq_nil_iff.mp hnil)

/-- Witness for C6 at a concrete session: loop batches are non-empty and
the initial batch of the one-file session is non-empty. -/
theorem c6_no_empty_batch_witness :
    (∀ b ∈ runLoop false exResult.infos exSteps, b ≠ []) ∧
    exResult.initialBatch ≠ [] :=
  ⟨fun b hb => (c6_no_empty_batch false).1 exSteps exResult.infos b hb,
    (c6_no_empty_batch false).2.2 (.ok ["w"]) none exFS exResult (by rfl)⟩

/-- C7: the start operation fails, returning only an error (so no stream,
no tracked set and no background loop exist), exactly when path
resolution fails, an explicit interval ≤ 0 is supplied, or the initial
walk returns an error. -/
theorem c7_setup_error_iff (a : Except GoErr Path) (r : Bool)
    (iv : Option Int) (fs : FS) :
    (∃ e, Watch a r iv fs = .error e) ↔
      ((∃ e, a = .error e) ∨ (∃ v, iv = some v ∧ v ≤ 0) ∨
        (∃ root, a = .ok root ∧ (initialWalk r fs root).2 ≠ none)) := by
  cases a with
  | error e => simp [Watch]
  | ok root =>
    cases iv with
    | none =>
      simp only [Watch]
      constructor
      · rintro ⟨e, he⟩
        right; right
        refine ⟨root, rfl, ?_⟩
        rcases hw : initialWalk r fs root with ⟨infos, werr⟩
        unfold watchGo at he
        rw [hw] at he
        cases werr with
        | some e' => simp
        | none => exact absurd he (by simp)
      · rintro (⟨e, he⟩ | ⟨v, hv, _⟩ | ⟨root', hr, hwerr⟩)
        · exact absurd he (by simp)
        · exact absurd hv (by simp)
        · injection hr with hr'
          subst hr'
          rcases hw : initialWalk r fs root with ⟨infos, werr⟩
          rw [hw] at hwerr
          cases werr with
          | some e' =>
            refine ⟨e', ?_⟩
            unfold watchGo
            rw [hw]
          | none => exact absurd rfl hwerr
    | some v =>
      simp only [Watch]
      by_cases hv : v ≤ 0
      · rw [if_pos hv]
        constructor
        · intro _
          right; left
          exact ⟨v, rfl, hv⟩
        · intro _
          exact ⟨_, rfl⟩
      · rw [if_neg hv]
        constructor
        · rintro ⟨e, he⟩
          right; right
          refine ⟨root, rfl, ?_⟩
          rcases hw : initialWalk r fs root with ⟨infos, werr⟩
          unfold watchGo at he
          rw [hw] at he
          cases werr with
          | some e' => simp
          | none => exact absurd he (by simp)
        · rintro (⟨e, he⟩ | ⟨v', hv', hle⟩ | ⟨root', hr, hwerr⟩)
          · exact absurd he (by simp)
          · injection hv' with hv''
            subst hv''
            exact absurd hle hv
          · injection hr with hr'
            subst hr'
            rcases hw : initialWalk r fs root with ⟨infos, werr⟩
            rw [hw] at hwerr
            cases werr with
            | some e' =>
              refine ⟨e', ?_⟩
              unfold watchGo
              rw [hw]
            | none => exact absurd rfl hwerr

/-- C8 counterexample: as stated, the claim fails.  Go's `select` chooses
pseudo-randomly among ready branches, so with both the ticker and the
`done` channel ready the ticker branch may be chosen: in this legal trace
the `done` channel is ready at every iteration, yet the pending scan is
performed and its batch delivered before the loop returns. -/
theorem c8_cancel_not_priority :
    (∀ st ∈ c8steps, stepOk st = true ∧ st.doneReady = true) ∧
    runLoop true c8infos c8steps =
      [[changedUpdate ["r"] ⟨false, 0, 1⟩ ⟨false, 1, 1⟩]] := by
  decide

/-- C8 (amended): once the `done` branch of the `select` is taken the
loop returns — delivering nothing for that iteration — and no later
iteration can deliver anything: the deliveries of a trace are exactly
those of its prefix up to the first `done` choice.  (When the ticker and
the cancellation signal are simultaneously ready, either branch may be
chosen, so a pending scan may still be delivered first; priority of
cancellation is not guaranteed.) -/
theorem c8_after_done (r : Bool) (infos : Infos) (d : Bool)
    (pre post : List SelectStep) :
    runLoop r infos (⟨d, Choice.doneRecv⟩ :: post) = [] ∧
    runLoop r infos (pre ++ ⟨d, Choice.doneRecv⟩ :: post) =
      runLoop r infos (pre ++ [⟨d, Choice.doneRecv⟩]) := by
  refine ⟨rfl, ?_⟩
  induction pre generalizing infos with
  | nil => simp [runLoop]
  | cons st rest ih =>
    obtain ⟨d', ch⟩ := st
    cases ch with
    | doneRecv => simp [runLoop]
    | tickFire fs =>
      have step : ∀ (tail : List SelectStep),
          runLoop r infos (⟨d', Choice.tickFire fs⟩ :: tail) =
            (if (scanTick r fs infos).2.length > 0
             then (scanTick r fs infos).2 :: runLoop r (scanTick r fs infos).1 tail
             else runLoop r (scanTick r fs infos).1 tail) := fun tail => rfl
      rw [List.cons_append, List.cons_append, step, step]
      by_cases hl : (scanTick r fs infos).2.length > 0
      · rw [if_pos hl, if_pos hl, ih]
      · rw [if_neg hl, if_neg hl, ih]

/-- C9: in every delivered ChangeEvent of every batch of every session,
the `previous` snapshot is present and `wasAdded`/`wasRemoved` are never
both true. -/
theorem c9_event_invariants (a : Except GoErr Path) (r : Bool)
    (iv : Option Int) (fs : FS) (w : WatchResult)
    (h : Watch a r iv fs = .ok w) :
    ∀ (steps : List SelectStep), ∀ b ∈ sessionBatches r w steps, ∀ u ∈ b,
      u.prev ≠ none ∧ ¬(u.wasAdded = true ∧ u.wasRemoved = true) := by
  obtain ⟨root, _, _, _, hbatch, _⟩ := watch_ok_elim h
  intro steps b hb u hu
  rcases List.mem_cons.mp hb with h1 | h1
  · subst h1
    rw [hbatch] at hu
    obtain ⟨e, _, heq⟩ := List.mem_map.mp hu
    subst heq
    exact ⟨by simp [addedUpdate], by simp [addedUpdate]⟩
  · exact runLoop_updOk r steps w.infos b h1 u hu

/-- Witness for C9 at a concrete session with one change-producing tick. -/
theorem c9_event_invariants_witness :
    Watch (.ok ["w"]) false none exFS = .ok exResult ∧
    (∀ b ∈ sessionBatches false exResult exSteps, ∀ u ∈ b,
      u.prev ≠ none ∧ ¬(u.wasAdded = true ∧ u.wasRemoved = true)) :=
  ⟨by rfl,
    c9_event_invariants (.ok ["w"]) false none exFS exResult (by rfl) exSteps⟩

/-- C10: a session started with no explicit interval uses a scan timer
period of exactly 2 seconds (2 000 000 000 ns). -/
theorem c10_default_interval (a : Except GoErr Path) (r : Bool) (fs : FS)
    (w : WatchResult) (h : Watch a r none fs = .ok w) :
    w.tick = 2 * 1000000000 := by
  obtain ⟨root, _, _, _, _, htick⟩ := watch_ok_elim h
  simpa [defaultTick] using htick rfl

/-- Witness for C10 at the concrete one-file session. -/
theorem c10_default_interval_witness :
    Watch (.ok ["w"]) false none exFS = .ok exResult ∧
    exResult.tick = 2 * 1000000000 :=
  ⟨by rfl, c10_default_interval (.ok ["w"]) false exFS exResult (by rfl)⟩

end Filewatch
